import Mathlib

/-!
Shallow embedding of `run-tests.js`, a multi-language test launcher.

The embedding covers the bounded task pool (`TaskPool`, source lines
160-193), the sequential per-language unit executor (`sequentialMap` and
`testExchange`, lines 97-156), the warning extraction inside `exec`
(lines 62-87), the language-selection table (lines 112-121) and the final
exit logic of the main coordinator (lines 214-245).

The pool runs under JavaScript's single-threaded cooperative scheduler:
submissions (`run`) and settlement handlers are atomic blocks of
synchronous code, so the pool is modelled as a state machine whose steps
are (a) submitting a task and (b) settling the promise raced by
`timeout (maxTime, task ())` for one currently running task.  In the
program all submissions happen synchronously before `all()` is called and
before any settlement handler can fire, so an execution is a submission
phase followed by a settlement schedule.
-/

namespace RunTests

/-- Settlement behavior of the promise raced by `timeout (maxTime, task ())`:
it either fulfills with the task's value, or rejects (the timeout timer
fired first and threw `Error ('timed out')`, or the task itself threw). -/
inductive Outcome
  | fulfilled
  | rejected
  deriving DecidableEq, Repr

/-- A task submitted to the pool, identified by a submission id and carrying
the way its raced promise will eventually settle. -/
structure Task where
  tid : Nat
  behavior : Outcome
  deriving DecidableEq, Repr

/-- State of one promise `p` that was pushed onto the pool's `pending` array
at direct-submission time.  In the source, when such a task fulfills and
dequeues a queued task, `p` resolves only after the dequeued task's own
promise resolves (`queue.shift () ().then (() => x)`), so `p` transitively
waits on a chain of follow-on tasks; `active tip` means the chain is
currently waiting on the running task `tip`. -/
inductive Chain
  | active (tip : Task)
  | resolvedC
  | rejectedC
  deriving DecidableEq, Repr

/-- The running tasks a single chain is waiting on (one for an active chain,
none otherwise). -/
def Chain.tips : Chain → List Task
  | Chain.active t => [t]
  | _ => []

/-- All tasks currently in the RUNNING state: every started task is the tip
of exactly one pending chain (roots are started directly by `run`, the
others by `queue.shift () ()` inside a settlement handler). -/
def activeTips : List Chain → List Task
  | [] => []
  | c :: rest => c.tips ++ activeTips rest

/-- Pool state: `numActive` and `queue` are the mutable fields of the
`TaskPool` closure; `chains` embeds the `pending` array as seen by the
single `all ()` call made right after the submission phase; `settled`
records the tasks whose raced promise has settled, in settlement order;
`dequeued` is a ghost trace of the tasks started from the queue, in the
order they were started. -/
structure PoolState where
  maxConcurrency : Nat
  numActive : Nat
  queue : List Task
  chains : List Chain
  settled : List Task
  dequeued : List Task

/-- Fresh pool, as built by `TaskPool ({ maxTime, maxConcurrency })`. -/
def initPool (max : Nat) : PoolState :=
  { maxConcurrency := max, numActive := 0, queue := [], chains := [],
    settled := [], dequeued := [] }

/-- The `run (task)` method: if `numActive >= maxConcurrency` the task is
pushed on the FIFO `queue`; otherwise it starts immediately, `numActive`
is incremented and its promise joins `pending` as a new chain. -/
def submit (s : PoolState) (t : Task) : PoolState :=
  if s.maxConcurrency ≤ s.numActive then
    { s with queue := s.queue ++ [t] }
  else
    { s with numActive := s.numActive + 1,
             chains := s.chains ++ [Chain.active t] }

/-- Settlement of the raced promise of the tip of chain `i`, mirroring the
handler `timeout (maxTime, task ()).then (x => ...)` in `TaskPool.run`.
The handler is only attached for fulfillment, so on rejection nothing
runs: `numActive` is NOT decremented and nothing is dequeued; the chain's
promise simply rejects.  On fulfillment `numActive--` runs first, then
`(queue.length && (numActive < maxConcurrency))` decides whether the
queue head is dequeued and started (extending the chain) or the chain
resolves. -/
def settleChain (s : PoolState) (i : Nat) : PoolState :=
  match s.chains.get? i with
  | some (Chain.active t) =>
    match t.behavior with
    | Outcome.rejected =>
        { s with chains := s.chains.set i Chain.rejectedC,
                 settled := s.settled ++ [t] }
    | Outcome.fulfilled =>
        match s.queue with
        | h :: rest =>
            if s.numActive - 1 < s.maxConcurrency then
              { s with numActive := (s.numActive - 1) + 1,
                       queue := rest,
                       dequeued := s.dequeued ++ [h],
                       chains := s.chains.set i (Chain.active h),
                       settled := s.settled ++ [t] }
            else
              { s with numActive := s.numActive - 1,
                       chains := s.chains.set i Chain.resolvedC,
                       settled := s.settled ++ [t] }
        | [] =>
            { s with numActive := s.numActive - 1,
                     chains := s.chains.set i Chain.resolvedC,
                     settled := s.settled ++ [t] }
  | _ => s

/-- Submission phase: the `for (const ex of exchanges) taskPool.run (...)`
loop, which runs synchronously before any settlement handler fires. -/
def submitAll (tasks : List Task) (s : PoolState) : PoolState :=
  tasks.foldl submit s

/-- Settlement phase: a schedule of chain settlements chosen by the event
loop. -/
def runSched (sched : List Nat) (s : PoolState) : PoolState :=
  sched.foldl settleChain s

/-- Number of tasks in the RUNNING state. -/
def numRunning (s : PoolState) : Nat := (activeTips s.chains).length

/-- The pool's `all ()` (i.e. `Promise.all (pending)`) has resolved: every
promise in the `pending` snapshot fulfilled, which requires its whole
chain of queue-induced follow-on tasks to have fulfilled. -/
def joinResolved (s : PoolState) : Prop :=
  ∀ c ∈ s.chains, c = Chain.resolvedC

/-- The pool's `all ()` has rejected: some pending chain contains a rejected
settlement, so `Promise.all (pending)` rejects.  In the program the main
IIFE awaits this promise without a catch, so the process-level
`unhandledRejection` handler fires and exits with status 1 before any
summary is printed. -/
def joinRejected (s : PoolState) : Prop :=
  Chain.rejectedC ∈ s.chains

instance (s : PoolState) : Decidable (joinResolved s) := by
  unfold joinResolved
  infer_instance

instance (s : PoolState) : Decidable (joinRejected s) := by
  unfold joinRejected
  infer_instance

/-- A task whose raced promise rejects (e.g. a timeout). -/
def tA : Task := ⟨0, Outcome.rejected⟩

/-- A task whose raced promise fulfills. -/
def tB : Task := ⟨1, Outcome.fulfilled⟩

/-- C1: with ceiling 1, submit a task A that settles by rejection (timeout
or throw) and a task B behind it in the queue.  After A's settlement the
pool's active counter still reads 1 — the decrement `numActive--` lives
only in the fulfillment handler, so it never runs on the rejection path —
no task is dequeued, B is stranded in the queue and no RUNNING task
remains that could ever free the slot.  This exhibits the failing input
for the claim that increments and decrements are paired across every
settlement path. -/
theorem pool_no_decrement_on_rejected_settlement :
    (settleChain (submitAll [tA, tB] (initPool 1)) 0).numActive = 1 ∧
    (settleChain (submitAll [tA, tB] (initPool 1)) 0).queue = [tB] ∧
    (settleChain (submitAll [tA, tB] (initPool 1)) 0).settled = [tA] ∧
    numRunning (settleChain (submitAll [tA, tB] (initPool 1)) 0) = 0 := by
  decide

/-- C4 evidence: ceiling 2, task A's raced promise rejects (timeout) while
task B runs beside it.  B's settlement is not delayed — both settle under
the schedule — but A's rejection makes some pending chain rejected, so
`Promise.all (pending)` rejects, the main IIFE's awaited promise rejects,
and the process-level `unhandledRejection` handler exits the whole run
with status 1 before any summary; A's slot is also never freed
(`numActive` stays 1 with nothing running). -/
theorem pool_timeout_rejects_join :
    joinRejected (runSched [0, 1] (submitAll [tA, tB] (initPool 2))) ∧
    (runSched [0, 1] (submitAll [tA, tB] (initPool 2))).settled = [tA, tB] ∧
    (runSched [0, 1] (submitAll [tA, tB] (initPool 2))).numActive = 1 ∧
    numRunning (runSched [0, 1] (submitAll [tA, tB] (initPool 2))) = 0 := by
  decide

/-- Tips distribute over list append. -/
theorem activeTips_append (l1 l2 : List Chain) :
    activeTips (l1 ++ l2) = activeTips l1 ++ activeTips l2 := by
  induction l1 with
  | nil => simp [activeTips]
  | cons c rest ih => simp [activeTips, ih]

/-- A block of freshly started chains has exactly its tasks as tips. -/
theorem activeTips_map_active (l : List Task) :
    activeTips (l.map Chain.active) = l := by
  induction l with
  | nil => simp [activeTips]
  | cons t rest ih => simp [activeTips, Chain.tips, ih]

/-- Updating the chain at position `i` (which is active on `t`) replaces the
single occurrence of `t` in the tip list by the new chain's tips. -/
theorem activeTips_set (l : List Chain) (i : Nat) (t : Task) (c' : Chain)
    (h : l.get? i = some (Chain.active t)) :
    ∃ A B, activeTips l = A ++ t :: B ∧
      activeTips (l.set i c') = A ++ (c'.tips ++ B) := by
  induction l generalizing i with
  | nil => simp at h
  | cons c rest ih =>
    cases i with
    | zero =>
      simp at h
      subst h
      exact ⟨[], activeTips rest, by simp [activeTips, Chain.tips],
        by simp [activeTips]⟩
    | succ j =>
      obtain ⟨A, B, h1, h2⟩ := ih j (by simpa using h)
      refine ⟨c.tips ++ A, B, ?_, ?_⟩
      · simp [activeTips, h1]
      · simp [activeTips, h2]

/-- Settling a chain preserves the combined dequeue trace: tasks only move
from the front of the queue to the back of the started-from-queue trace.
This is the FIFO part of the ceiling claim. -/
theorem settleChain_dequeued_queue (s : PoolState) (i : Nat) :
    (settleChain s i).dequeued ++ (settleChain s i).queue =
      s.dequeued ++ s.queue := by
  unfold settleChain
  split
  · split
    · simp
    · split
      · split
        · rename_i hq _
          simp [hq]
        · rename_i hq _
          simp [hq]
      · simp
  · rfl

/-- Settling never changes the number of pending chains. -/
theorem settleChain_chains_length (s : PoolState) (i : Nat) :
    (settleChain s i).chains.length = s.chains.length := by
  unfold settleChain
  split
  · split
    · simp
    · split
      · split <;> simp
      · simp
  · rfl

/-- Settling never changes the configured ceiling. -/
theorem settleChain_max (s : PoolState) (i : Nat) :
    (settleChain s i).maxConcurrency = s.maxConcurrency := by
  unfold settleChain
  split
  · split
    · simp
    · split
      · split <;> simp
      · simp
  · rfl

/-- Closed form of the submission phase: with `k` free slots, the first `k`
submitted tasks start as new active chains and the rest queue in arrival
order; nothing settles and nothing is dequeued. -/
theorem submitAll_spec (tasks : List Task) (s : PoolState) :
    (submitAll tasks s).maxConcurrency = s.maxConcurrency ∧
    (submitAll tasks s).queue =
      s.queue ++ tasks.drop (s.maxConcurrency - s.numActive) ∧
    (submitAll tasks s).chains =
      s.chains ++ (tasks.take (s.maxConcurrency - s.numActive)).map Chain.active ∧
    (submitAll tasks s).numActive =
      s.numActive + min tasks.length (s.maxConcurrency - s.numActive) ∧
    (submitAll tasks s).settled = s.settled ∧
    (submitAll tasks s).dequeued = s.dequeued := by
  induction tasks generalizing s with
  | nil => simp [submitAll]
  | cons t ts ih =>
    have hfold : submitAll (t :: ts) s = submitAll ts (submit s t) := by
      simp [submitAll]
    rw [hfold]
    by_cases hb : s.maxConcurrency ≤ s.numActive
    · have hk : s.maxConcurrency - s.numActive = 0 := Nat.sub_eq_zero_of_le hb
      have := ih ({ s with queue := s.queue ++ [t] })
      simp [submit, if_pos hb, hk] at this ⊢
      exact this
    · have ha : s.numActive < s.maxConcurrency := Nat.lt_of_not_le hb
      obtain ⟨k, hk⟩ : ∃ k, s.maxConcurrency - s.numActive = k + 1 :=
        ⟨s.maxConcurrency - s.numActive - 1, by omega⟩
      have hk2 : s.maxConcurrency - (s.numActive + 1) = k := by omega
      have := ih ({ s with numActive := s.numActive + 1,
                           chains := s.chains ++ [Chain.active t] })
      simp [submit, if_neg hb, hk, hk2] at this ⊢
      refine ⟨this.1, this.2.1, ?_, ?_, this.2.2.2.2⟩
      · rw [this.2.2.1]
      · rw [this.2.2.2.1]
        omega

/-- Length form of `activeTips_set`. -/
theorem activeTips_set_length (l : List Chain) (i : Nat) (t : Task) (c' : Chain)
    (h : l.get? i = some (Chain.active t)) :
    (activeTips (l.set i c')).length + 1 = (activeTips l).length + c'.tips.length := by
  obtain ⟨A, B, h1, h2⟩ := activeTips_set l i t c' h
  rw [h1, h2]
  simp
  omega

/-- A chain that is active at position `i` contributes a running tip. -/
theorem activeTips_pos (l : List Chain) (i : Nat) (t : Task)
    (h : l.get? i = some (Chain.active t)) :
    1 ≤ (activeTips l).length := by
  obtain ⟨A, B, h1, -⟩ := activeTips_set l i t Chain.resolvedC h
  rw [h1]
  simp only [List.length_append, List.length_cons]
  omega

/-- Counter invariant of the pool: the number of RUNNING tasks never exceeds
the active counter, which never exceeds the ceiling. -/
def CoreInv (s : PoolState) : Prop :=
  numRunning s ≤ s.numActive ∧ s.numActive ≤ s.maxConcurrency

/-- Drain invariant: a chain only resolves (`: x` without a dequeue) when the
queue is empty at that settlement, and during the settlement phase the
queue never grows, so the presence of a resolved chain implies an empty
queue. -/
def QuietInv (s : PoolState) : Prop :=
  (∃ c ∈ s.chains, c = Chain.resolvedC) → s.queue = []

/-- Conservation invariant: every submitted task is in exactly one place —
waiting in the queue, running as the tip of a pending chain, or settled. -/
def TaskInv (tasks : List Task) (s : PoolState) : Prop :=
  tasks.Perm (s.queue ++ activeTips s.chains ++ s.settled)

/-- Settlement preserves the counter invariant. -/
theorem coreInv_settle (s : PoolState) (i : Nat) (h : CoreInv s) :
    CoreInv (settleChain s i) := by
  obtain ⟨h1, h2⟩ := h
  unfold CoreInv numRunning at *
  unfold settleChain
  split
  · rename_i t heq
    have hpos := activeTips_pos s.chains i t heq
    split
    · -- the raced promise rejected: no decrement, tip leaves RUNNING
      have hlen := activeTips_set_length s.chains i t Chain.rejectedC heq
      simp [Chain.tips] at hlen ⊢
      omega
    · split
      · split
        · -- fulfilled, queue head dequeued and started
          rename_i h3 rest hq hlt
          have hlen := activeTips_set_length s.chains i t (Chain.active h3) heq
          simp [Chain.tips] at hlen ⊢
          omega
        · -- fulfilled, queue nonempty but no free slot (unreachable)
          have hlen := activeTips_set_length s.chains i t Chain.resolvedC heq
          simp [Chain.tips] at hlen ⊢
          omega
      · -- fulfilled with empty queue: chain resolves
        have hlen := activeTips_set_length s.chains i t Chain.resolvedC heq
        simp [Chain.tips] at hlen ⊢
        omega
  · exact ⟨h1, h2⟩

/-- Settlement preserves the drain invariant (using the counter invariant to
rule out the no-free-slot branch). -/
theorem quietInv_settle (s : PoolState) (i : Nat) (hc : CoreInv s)
    (h : QuietInv s) : QuietInv (settleChain s i) := by
  obtain ⟨hc1, hc2⟩ := hc
  unfold QuietInv at *
  unfold settleChain
  split
  · rename_i t heq
    have hpos := activeTips_pos s.chains i t heq
    split
    · -- rejected: no new resolved chain appears
      rintro ⟨c, hmem, rfl⟩
      rcases List.mem_or_eq_of_mem_set hmem with h' | h'
      · exact h ⟨_, h', rfl⟩
      · cases h'
    · split
      · split
        · -- dequeue: queue was nonempty, so no chain was resolved before,
          -- and none is created here
          rename_i h3 rest hq hlt
          rintro ⟨c, hmem, rfl⟩
          rcases List.mem_or_eq_of_mem_set hmem with h' | h'
          · have := h ⟨_, h', rfl⟩
            rw [hq] at this
            cases this
          · cases h'
        · -- no free slot: contradicts numActive ≤ max with a running tip
          exfalso
          unfold numRunning at hc1
          omega
      · -- empty queue: the resolved chain is created with the queue empty
        rename_i hq
        intro _
        exact hq
  · exact h

/-- Settlement preserves the conservation invariant. -/
theorem taskInv_settle (tasks : List Task) (s : PoolState) (i : Nat)
    (h : TaskInv tasks s) : TaskInv tasks (settleChain s i) := by
  unfold TaskInv at *
  unfold settleChain
  split
  · rename_i t heq
    split
    · -- rejected: tip moves from RUNNING to settled
      obtain ⟨A, B, hA, hB⟩ := activeTips_set s.chains i t Chain.rejectedC heq
      refine h.trans ?_
      simp only [hA, hB, Chain.tips]
      rw [List.perm_iff_count]
      intro a
      by_cases hat : a = t <;>
        simp [List.count_append, List.count_cons, hat] <;> omega
    · split
      · split
        · -- dequeue: queue head moves to RUNNING, tip moves to settled
          rename_i h3 rest hq hlt
          obtain ⟨A, B, hA, hB⟩ := activeTips_set s.chains i t (Chain.active h3) heq
          refine h.trans ?_
          simp only [hA, hB, hq, Chain.tips]
          rw [List.perm_iff_count]
          intro a
          by_cases hat : a = t <;> by_cases hah : a = h3 <;>
            simp [List.count_append, List.count_cons, hat, hah] <;> omega
        · -- no free slot: tip moves to settled, queue untouched
          obtain ⟨A, B, hA, hB⟩ := activeTips_set s.chains i t Chain.resolvedC heq
          refine h.trans ?_
          simp only [hA, hB, Chain.tips]
          rw [List.perm_iff_count]
          intro a
          by_cases hat : a = t <;>
            simp [List.count_append, List.count_cons, hat] <;> omega
      · -- empty queue: tip moves to settled
        obtain ⟨A, B, hA, hB⟩ := activeTips_set s.chains i t Chain.resolvedC heq
        refine h.trans ?_
        simp only [hA, hB, Chain.tips]
        rw [List.perm_iff_count]
        intro a
        by_cases hat : a = t <;>
          simp [List.count_append, List.count_cons, hat] <;> omega
  · exact h

/-- The counter invariant survives any settlement schedule. -/
theorem runSched_coreInv (sched : List Nat) (s : PoolState) (h : CoreInv s) :
    CoreInv (runSched sched s) := by
  induction sched generalizing s with
  | nil => exact h
  | cons i rest ih => exact ih _ (coreInv_settle s i h)

/-- The drain invariant survives any settlement schedule. -/
theorem runSched_quietInv (sched : List Nat) (s : PoolState) (hc : CoreInv s)
    (h : QuietInv s) : QuietInv (runSched sched s) := by
  induction sched generalizing s with
  | nil => exact h
  | cons i rest ih =>
    exact ih _ (coreInv_settle s i hc) (quietInv_settle s i hc h)

/-- The conservation invariant survives any settlement schedule. -/
theorem runSched_taskInv (tasks : List Task) (sched : List Nat) (s : PoolState)
    (h : TaskInv tasks s) : TaskInv tasks (runSched sched s) := by
  induction sched generalizing s with
  | nil => exact h
  | cons i rest ih => exact ih _ (taskInv_settle tasks s i h)

/-- The ceiling is constant through any settlement schedule. -/
theorem runSched_max (sched : List Nat) (s : PoolState) :
    (runSched sched s).maxConcurrency = s.maxConcurrency := by
  induction sched generalizing s with
  | nil => rfl
  | cons i rest ih =>
    calc (runSched rest (settleChain s i)).maxConcurrency
        = (settleChain s i).maxConcurrency := ih _
      _ = s.maxConcurrency := settleChain_max s i

/-- The dequeue trace plus remaining queue is constant through any
settlement schedule. -/
theorem runSched_dq (sched : List Nat) (s : PoolState) :
    (runSched sched s).dequeued ++ (runSched sched s).queue =
      s.dequeued ++ s.queue := by
  induction sched generalizing s with
  | nil => rfl
  | cons i rest ih =>
    calc (runSched rest (settleChain s i)).dequeued ++
          (runSched rest (settleChain s i)).queue
        = (settleChain s i).dequeued ++ (settleChain s i).queue := ih _
      _ = s.dequeued ++ s.queue := settleChain_dequeued_queue s i

/-- The number of pending chains is constant through any settlement
schedule. -/
theorem runSched_chains_length (sched : List Nat) (s : PoolState) :
    (runSched sched s).chains.length = s.chains.length := by
  induction sched generalizing s with
  | nil => rfl
  | cons i rest ih =>
    calc (runSched rest (settleChain s i)).chains.length
        = (settleChain s i).chains.length := ih _
      _ = s.chains.length := settleChain_chains_length s i

/-- The counter invariant holds right after the submission phase. -/
theorem submitAll_coreInv (max : Nat) (tasks : List Task) :
    CoreInv (submitAll tasks (initPool max)) := by
  obtain ⟨hm, -, hc, hn, -, -⟩ := submitAll_spec tasks (initPool max)
  constructor
  · unfold numRunning
    rw [hc, hn]
    simp only [initPool, List.nil_append, Nat.sub_zero, Nat.zero_add,
      activeTips_map_active, List.length_take]
    omega
  · rw [hn, hm]
    simp only [initPool, Nat.sub_zero, Nat.zero_add]
    omega

/-- The drain invariant holds right after the submission phase: no chain
has resolved yet. -/
theorem submitAll_quietInv (max : Nat) (tasks : List Task) :
    QuietInv (submitAll tasks (initPool max)) := by
  obtain ⟨-, -, hc, -, -, -⟩ := submitAll_spec tasks (initPool max)
  unfold QuietInv
  rw [hc]
  rintro ⟨c, hmem, rfl⟩
  exfalso
  simp only [initPool, List.nil_append] at hmem
  obtain ⟨a, -, ha⟩ := List.mem_map.mp hmem
  cases ha

/-- The conservation invariant holds right after the submission phase. -/
theorem submitAll_taskInv (max : Nat) (tasks : List Task) :
    TaskInv tasks (submitAll tasks (initPool max)) := by
  obtain ⟨-, hq, hc, -, hs, -⟩ := submitAll_spec tasks (initPool max)
  unfold TaskInv
  rw [hq, hc, hs]
  simp only [initPool, List.nil_append, List.append_nil, Nat.sub_zero,
    activeTips_map_active]
  have h1 : tasks.take max ++ tasks.drop max = tasks :=
    List.take_append_drop max tasks
  have h2 : (tasks.take max ++ tasks.drop max).Perm
      (tasks.drop max ++ tasks.take max) := List.perm_append_comm
  rw [h1] at h2
  exact h2

/-- Tip list of a fully resolved chain list is empty. -/
theorem activeTips_eq_nil (l : List Chain)
    (h : ∀ c ∈ l, c = Chain.resolvedC) : activeTips l = [] := by
  induction l with
  | nil => rfl
  | cons c rest ih =>
    have hc := h c (by simp)
    subst hc
    simp only [activeTips, Chain.tips, List.nil_append]
    exact ih (fun c hc => h c (by simp [hc]))

/-- C2: for every ceiling, submission list and settlement schedule, the
number of RUNNING tasks never exceeds `maxConcurrency` (every reachable
state is an instance of this statement at a prefix of the inputs), and
tasks that found the ceiling reached leave the FIFO queue only from the
front into the trace of queue-starts, in strict arrival order: the
started-from-queue trace followed by the remaining queue is always
exactly the arrival-ordered overflow `tasks.drop max`. -/
theorem pool_ceiling_and_fifo (max : Nat) (tasks : List Task)
    (sched : List Nat) :
    numRunning (runSched sched (submitAll tasks (initPool max))) ≤ max ∧
    (runSched sched (submitAll tasks (initPool max))).dequeued ++
      (runSched sched (submitAll tasks (initPool max))).queue =
        tasks.drop max := by
  constructor
  · have hcore := runSched_coreInv sched _ (submitAll_coreInv max tasks)
    have hmax : (runSched sched (submitAll tasks (initPool max))).maxConcurrency
        = max := by
      rw [runSched_max]
      have := (submitAll_spec tasks (initPool max)).1
      simpa [initPool] using this
    have h2 := hcore.2
    rw [hmax] at h2
    exact le_trans hcore.1 h2
  · rw [runSched_dq]
    obtain ⟨-, hq, -, -, -, hd⟩ := submitAll_spec tasks (initPool max)
    rw [hq, hd]
    simp [initPool]

/-- C3: join completeness.  If the pool's `all ()` promise has resolved —
every pending chain fulfilled through its whole queue-induced follow-on
chain — then every one of the K submitted tasks has settled, including
tasks that were still queued when `all ()` was called right after the
submission phase.  (The ceiling must be positive: with ceiling 0 nothing
ever starts and `Promise.all ([])` resolves vacuously.) -/
theorem pool_join_completeness (max : Nat) (tasks : List Task)
    (sched : List Nat) (hmax : 0 < max)
    (hres : joinResolved (runSched sched (submitAll tasks (initPool max)))) :
    (runSched sched (submitAll tasks (initPool max))).settled.Perm tasks := by
  have htask := runSched_taskInv tasks sched _ (submitAll_taskInv max tasks)
  have hquiet := runSched_quietInv sched _ (submitAll_coreInv max tasks)
    (submitAll_quietInv max tasks)
  have htips : activeTips (runSched sched (submitAll tasks (initPool max))).chains
      = [] := activeTips_eq_nil _ hres
  unfold TaskInv at htask
  rw [htips, List.append_nil] at htask
  cases tasks with
  | nil =>
    have := htask.symm.eq_nil
    have hsettled : (runSched sched (submitAll [] (initPool max))).settled = [] :=
      (List.append_eq_nil.mp this).2
    rw [hsettled]
  | cons t ts =>
    have hqempty : (runSched sched (submitAll (t :: ts) (initPool max))).queue
        = [] := by
      have hlen : (runSched sched (submitAll (t :: ts) (initPool max))).chains.length
          = min max (t :: ts).length := by
        rw [runSched_chains_length]
        rw [(submitAll_spec (t :: ts) (initPool max)).2.2.1]
        simp [initPool, List.length_take]
      have hpos : 0 < (runSched sched (submitAll (t :: ts) (initPool max))).chains.length := by
        rw [hlen]
        simp
        omega
      obtain ⟨c, hcmem⟩ := List.exists_mem_of_length_pos hpos
      exact hquiet ⟨c, hcmem, hres c hcmem⟩
    rw [hqempty, List.nil_append] at htask
    exact htask.symm

/-- Fulfilling task used by join-completeness witnesses. -/
def tC : Task := ⟨2, Outcome.fulfilled⟩

/-- Second fulfilling task, queued behind `tC` at ceiling 1. -/
def tD : Task := ⟨3, Outcome.fulfilled⟩

/-- Witness for C3: at ceiling 1 task `tD` is still queued when `all ()` is
called; the single pending chain resolves only after the follow-on start
of `tD` settles, and then both tasks have settled. -/
theorem pool_join_completeness_witness :
    0 < 1 ∧
    joinResolved (runSched [0, 0] (submitAll [tC, tD] (initPool 1))) ∧
    (runSched [0, 0] (submitAll [tC, tD] (initPool 1))).settled.Perm [tC, tD] :=
  ⟨by decide, by decide,
    pool_join_completeness 1 [tC, tD] [0, 0] (by decide) (by decide)⟩

/-- One observable step of a sub-invocation from the event loop's view:
`exec` spawns the subprocess (start) and its promise resolves exactly
once, when the process exits (completion). -/
inductive TEvent
  | started (lang : String)
  | completed (lang : String)
  deriving DecidableEq, Repr

/-- The `sequentialMap` of run-tests.js over an effect-traced async
function: `for (const item of input) { result.push (await fn (item)) }`.
Each `await` runs the sub-invocation to completion — its whole event
trace — before the loop continues with the next item, which is the
event-loop semantics given that `exec`'s promise resolves only at
subprocess exit. -/
def sequentialMapT {α β : Type} (fn : α → β × List TEvent) :
    List α → List β × List TEvent
  | [] => ([], [])
  | x :: xs =>
      ((fn x).1 :: (sequentialMapT fn xs).1, (fn x).2 ++ (sequentialMapT fn xs).2)

/-- One static entry of the `allTests` table in `testExchange`: a language
name, its selection flag and the interpreter invocation. -/
structure TestSpec where
  language : String
  key : String
  cmd : List String
  deriving DecidableEq, Repr

/-- Model of one `exec (...test.exec)` call: the subprocess starts, runs,
and the promise settles at exit; results are irrelevant to the temporal
claim, so only the trace is kept. -/
def execEvents (t : TestSpec) : Unit × List TEvent :=
  ((), [TEvent.started t.language, TEvent.completed t.language])

/-- Full event trace of one unit (`testExchange`) over its scheduled
language specs. -/
def unitTrace (specs : List TestSpec) : List TEvent :=
  (sequentialMapT execEvents specs).2

/-- Index form of the unit trace: sub-invocation `i` occupies trace
positions `2*i` (start) and `2*i+1` (completion). -/
theorem unitTrace_get (specs : List TestSpec) (i : Nat) :
    (unitTrace specs).get? (2 * i) =
      (specs.get? i).map (fun t => TEvent.started t.language) ∧
    (unitTrace specs).get? (2 * i + 1) =
      (specs.get? i).map (fun t => TEvent.completed t.language) := by
  induction specs generalizing i with
  | nil => simp [unitTrace, sequentialMapT]
  | cons t ts ih =>
    cases i with
    | zero => simp [unitTrace, sequentialMapT, execEvents]
    | succ j =>
      have hrec : unitTrace (t :: ts) =
          TEvent.started t.language :: TEvent.completed t.language ::
            unitTrace ts := by
        simp [unitTrace, sequentialMapT, execEvents]
      constructor
      · rw [hrec]
        have h2 : 2 * (j + 1) = (2 * j + 1) + 1 := by omega
        rw [h2]
        simpa using (ih j).1
      · rw [hrec]
        have h2 : 2 * (j + 1) + 1 = (2 * j + 1) + 1 + 1 := by omega
        rw [h2]
        simpa using (ih j).2

/-- C5: strict sequencing within a unit.  For consecutive selected language
specs, the completion event of sub-invocation `i` occurs in the unit's
event trace at a strictly earlier position than the start event of
sub-invocation `i+1`: sub-invocations for the same target never
overlap. -/
theorem sub_invocations_sequential (specs : List TestSpec) (i : Nat)
    (h : i + 1 < specs.length) :
    ∃ pc ps, pc < ps ∧
      (unitTrace specs).get? pc =
        (specs.get? i).map (fun t => TEvent.completed t.language) ∧
      (unitTrace specs).get? ps =
        (specs.get? (i + 1)).map (fun t => TEvent.started t.language) ∧
      (specs.get? i).isSome ∧ (specs.get? (i + 1)).isSome := by
    refine ⟨2 * i + 1, 2 * (i + 1), by omega, (unitTrace_get specs i).2,
      (unitTrace_get specs (i + 1)).1, ?_, ?_⟩
    · rw [List.get?_eq_get (show i < specs.length by omega)]
      rfl
    · rw [List.get?_eq_get (show i + 1 < specs.length by omega)]
      rfl

/-- The `keys` CLI flag object (all default off; `--python` is Python 2). -/
structure Keys where
  js : Bool
  php : Bool
  python : Bool
  python3 : Bool
  deriving DecidableEq, Repr

/-- The lookup `keys[t.key]` performed by the selection filter. -/
def Keys.lookup (k : Keys) (s : String) : Bool :=
  if s = "--js" then k.js
  else if s = "--php" then k.php
  else if s = "--python" then k.python
  else if s = "--python3" then k.python3
  else false

/-- Positional arguments of every sub-invocation:
`[exchange, ...symbol === 'all' ? [] : symbol]`. -/
def testArgs (exchange symbol : String) : List String :=
  exchange :: (if symbol = "all" then [] else [symbol])

/-- The fixed `allTests` table of `testExchange`, in source order:
JavaScript, Python (2), Python 3, PHP. -/
def allTests (exchange symbol : String) : List TestSpec :=
  [ ⟨"JavaScript", "--js", ["node", "test/test.js"] ++ testArgs exchange symbol⟩,
    ⟨"Python", "--python", ["python", "test/test.py"] ++ testArgs exchange symbol⟩,
    ⟨"Python 3", "--python3", ["python3", "test/test_async.py"] ++ testArgs exchange symbol⟩,
    ⟨"PHP", "--php", ["php", "-f", "test/test.php"] ++ testArgs exchange symbol⟩ ]

/-- `selectedTests = allTests.filter (t => keys[t.key])`. -/
def selectedTests (k : Keys) (exchange symbol : String) : List TestSpec :=
  (allTests exchange symbol).filter (fun t => k.lookup t.key)

/-- `scheduledTests = selectedTests.length ? selectedTests : allTests`. -/
def scheduledTests (k : Keys) (exchange symbol : String) : List TestSpec :=
  if (selectedTests k exchange symbol).length ≠ 0 then
    selectedTests k exchange symbol
  else allTests exchange symbol

/-- Flags `--php --python3` set, nothing else. -/
def phpPy3 : Keys := ⟨false, true, false, true⟩

/-- No selection flags given. -/
def noKeys : Keys := ⟨false, false, false, false⟩

/-- C8 counterexample: with only `--php` and `--python3` selected, exactly
two sub-invocations are scheduled, but the filter preserves the fixed
table order JavaScript, Python, Python 3, PHP — so Python 3 runs before
PHP, not PHP before Python 3 as the claim states. -/
theorem scheduled_order_phpPy3_cex :
    (scheduledTests phpPy3 "x" "all").map (fun t => t.language) ≠
      ["PHP", "Python 3"] ∧
    (scheduledTests phpPy3 "x" "all").map (fun t => t.language) =
      ["Python 3", "PHP"] := by
  decide

/-- C8 amended: with only `--php` and `--python3` selected exactly two
sub-invocations are scheduled per target, in table order Python 3 then
PHP; in general a non-empty selected subset is scheduled exactly, and
with no flags the full fixed table is scheduled. -/
theorem scheduled_subset_amended :
    ((scheduledTests phpPy3 "x" "all").map (fun t => t.language) =
      ["Python 3", "PHP"]) ∧
    (∀ (k : Keys) (exchange symbol : String),
      selectedTests k exchange symbol ≠ [] →
        scheduledTests k exchange symbol = selectedTests k exchange symbol) ∧
    (∀ exchange symbol : String,
      scheduledTests noKeys exchange symbol = allTests exchange symbol) := by
  refine ⟨by decide, ?_, ?_⟩
  · intro k exchange symbol hne
    unfold scheduledTests
    rw [if_pos (fun h0 => hne (List.length_eq_zero.mp h0))]
  · intro exchange symbol
    simp [scheduledTests, selectedTests, allTests, Keys.lookup, noKeys]

/-- Witness applying the subset part of the amended C8 statement at the
concrete flag set `--php --python3`. -/
theorem scheduled_subset_amended_witness :
    selectedTests phpPy3 "x" "all" ≠ [] ∧
    scheduledTests phpPy3 "x" "all" = selectedTests phpPy3 "x" "all" :=
  ⟨by decide, scheduled_subset_amended.2.1 phpPy3 "x" "all" (by decide)⟩

/-- Witness for C5 at the full language table: the first sub-invocation's
completion precedes the second sub-invocation's start. -/
theorem sub_invocations_sequential_witness :
    0 + 1 < (allTests "x" "all").length ∧
    (∃ pc ps, pc < ps ∧
      (unitTrace (allTests "x" "all")).get? pc =
        ((allTests "x" "all").get? 0).map (fun t => TEvent.completed t.language) ∧
      (unitTrace (allTests "x" "all")).get? ps =
        ((allTests "x" "all").get? (0 + 1)).map (fun t => TEvent.started t.language) ∧
      ((allTests "x" "all").get? 0).isSome ∧
      ((allTests "x" "all").get? (0 + 1)).isSome) :=
  ⟨by decide, sub_invocations_sequential (allTests "x" "all") 0 (by decide)⟩

/-- Fields of one completed sub-result relevant to aggregation, as produced
by `exec` and merged into the test record by `Object.assign`. -/
structure SubResult where
  failed : Bool
  hasWarnings : Bool
  warnings : List String
  deriving DecidableEq, Repr

/-- `failed = completeTests.find (test => test.failed)`: the outcome field
holds the first failing record (an object, hence truthy) or `undefined`;
its boolean reading is whether the find succeeded. -/
def unitFailed (completeTests : List SubResult) : Bool :=
  (completeTests.find? (fun t => t.failed)).isSome

/-- `hasWarnings = completeTests.find (test => test.hasWarnings)`, read as a
boolean the same way. -/
def unitHasWarnings (completeTests : List SubResult) : Bool :=
  (completeTests.find? (fun t => t.hasWarnings)).isSome

/-- `warnings = completeTests.reduce ((total, s) => total.concat (s.warnings), [])`. -/
def unitWarnings (completeTests : List SubResult) : List String :=
  completeTests.foldl (fun total t => total ++ t.warnings) []

/-- Find-success equals the boolean OR of the predicate over the list. -/
theorem find?_isSome_eq_any (p : SubResult → Bool) (l : List SubResult) :
    (l.find? p).isSome = l.any p := by
  induction l with
  | nil => rfl
  | cons t ts ih =>
    cases hpt : p t
    · rw [List.find?_cons_of_neg _ (by simp [hpt])]
      simp [hpt, ih]
    · rw [List.find?_cons_of_pos _ hpt]
      simp [hpt]

/-- The concat-reduce with an accumulator flattens the warnings lists. -/
theorem foldl_concat_warnings (l : List SubResult) (acc : List String) :
    l.foldl (fun total t => total ++ t.warnings) acc =
      acc ++ (l.map (fun t => t.warnings)).flatten := by
  induction l generalizing acc with
  | nil => simp
  | cons t ts ih => simp [ih, List.append_assoc]

/-- C7: unit outcome aggregation.  For a fixed sequence of sub-results, the
unit's failed flag is the OR of the sub-results' failed flags, its
hasWarnings flag is the OR of their hasWarnings flags, and its warnings
list is the concatenation of their warnings lists in invocation
order. -/
theorem unit_outcome_aggregation (completeTests : List SubResult) :
    unitFailed completeTests = completeTests.any (fun t => t.failed) ∧
    unitHasWarnings completeTests = completeTests.any (fun t => t.hasWarnings) ∧
    unitWarnings completeTests =
      (completeTests.map (fun t => t.warnings)).flatten := by
  refine ⟨find?_isSome_eq_any _ _, find?_isSome_eq_any _ _, ?_⟩
  simpa using foldl_concat_warnings completeTests []

/-- Per-target outcome as the main coordinator reads it (`t.failed` and
`t.hasWarnings` as truthy values). -/
structure UnitResult where
  failed : Bool
  hasWarnings : Bool
  deriving DecidableEq, Repr

/-- The coordinator's exit status: `if (failed.length) { await sleep
(10000); process.exit (1) }` after the summary; otherwise the event loop
drains and node exits normally with status 0. -/
def mainExitCode (tested : List UnitResult) : Nat :=
  if (tested.filter (fun t => t.failed)).length ≠ 0 then 1 else 0

/-- Milliseconds slept before the explicit exit (the TravisCI log-flush
grace delay); zero on the normal-exit path. -/
def mainExitDelayMs (tested : List UnitResult) : Nat :=
  if (tested.filter (fun t => t.failed)).length ≠ 0 then 10000 else 0

/-- Nonemptiness of the failed partition equals the OR of the failed
flags. -/
theorem filter_failed_ne_zero_iff (l : List UnitResult) :
    ((l.filter (fun t => t.failed)).length ≠ 0) ↔
      l.any (fun t => t.failed) = true := by
  induction l with
  | nil => simp
  | cons t ts ih =>
    cases h : t.failed <;> simp [List.filter_cons, h, ih]

/-- C9: the process exits with status 0 when no target outcome failed, and
with status 1 — after the fixed 10000 ms flush delay — when at least one
target outcome failed. -/
theorem exit_status_after_flush (tested : List UnitResult) :
    mainExitCode tested =
      (if tested.any (fun t => t.failed) then 1 else 0) ∧
    mainExitDelayMs tested =
      (if tested.any (fun t => t.failed) then 10000 else 0) := by
  unfold mainExitCode mainExitDelayMs
  by_cases h : tested.any (fun t => t.failed) = true
  · rw [if_pos ((filter_failed_ne_zero_iff tested).mpr h), if_pos h,
      if_pos ((filter_failed_ne_zero_iff tested).mpr h), if_pos h]
    exact ⟨rfl, rfl⟩
  · rw [if_neg (fun hc => h ((filter_failed_ne_zero_iff tested).mp hc)),
      if_neg h,
      if_neg (fun hc => h ((filter_failed_ne_zero_iff tested).mp hc)),
      if_neg h]
    exact ⟨rfl, rfl⟩

/-- The ANSI escape character (ESC, 0x1b). -/
def escChar : Char := Char.ofNat 27

/-- Worker for the color stripping: the flag records whether the scanner is
inside an escape sequence, in which case parameter bytes (an opening
bracket, digits, semicolons) are consumed and the final command byte
(e.g. `m` for SGR color codes) ends the sequence. -/
def stripAnsiGo : Bool → List Char → List Char
  | _, [] => []
  | false, c :: rest =>
      if c = escChar then stripAnsiGo true rest
      else c :: stripAnsiGo false rest
  | true, d :: rest =>
      if d = '[' ∨ d.isDigit ∨ d = ';' then stripAnsiGo true rest
      else stripAnsiGo false rest

/-- Models the external `ansicolor` library's `strip` applied to the stderr
buffer: removes the SGR color escape sequences the test runners emit
(ESC, parameter bytes, final byte) and keeps everything else.  The
library is an external collaborator of the repository; only this
stripping behavior is relevant to the claims. -/
def stripAnsiL (l : List Char) : List Char := stripAnsiGo false l

/-- Mirrors `stderr.match (/^\[[^\]]+\]/g) || []` from `exec`: without the
`m` flag the caret anchor only matches at position 0, so the global match
yields at most one token, and only when the string itself starts with an
opening bracket, one or more non-closing-bracket characters, and a
closing bracket.  The greedy body run is `takeWhile (≠ closing bracket)`,
which can only stop at the closing bracket or at the end of the string,
so the match condition is that the remainder after the body starts with
the closing bracket. -/
def matchHeadToken (l : List Char) : List (List Char) :=
  match l with
  | [] => []
  | c :: rest =>
    if c = '[' ∧ 0 < (rest.takeWhile (fun d => d ≠ ']')).length ∧
        (rest.drop ((rest.takeWhile (fun d => d ≠ ']')).length)).head? = some ']'
    then [('[' :: rest.takeWhile (fun d => d ≠ ']')) ++ [']']]
    else []

/-- The `warnings` field of the `exec` result:
`ansi.strip (stderr).match (/^\[[^\]]+\]/g) || []`. -/
def warningsOf (stderr : List Char) : List (List Char) :=
  matchHeadToken (stripAnsiL stderr)

/-- Follows the SPEC's words, not the source, for comparison with
`warningsOf`: extract EVERY substring matching "starts with an opening
bracket, followed by one or more non-closing-bracket characters,
followed by a closing bracket" as one warning token, preserving order of
first appearance — an unanchored global scan resuming after each match.
The first argument is recursion fuel, instantiated with the string
length, which the scan never exhausts. -/
def specScan : Nat → List Char → List (List Char)
  | 0, _ => []
  | _ + 1, [] => []
  | fuel + 1, c :: rest =>
    if c = '[' then
      match rest.drop ((rest.takeWhile (fun d => d ≠ ']')).length) with
      | ']' :: after =>
          if 0 < (rest.takeWhile (fun d => d ≠ ']')).length then
            (('[' :: rest.takeWhile (fun d => d ≠ ']')) ++ [']']) ::
              specScan fuel after
          else specScan fuel rest
      | _ => specScan fuel rest
    else specScan fuel rest

/-- Extraction as worded by the spec. -/
def specExtractAll (l : List Char) : List (List Char) :=
  specScan l.length l

/-- Stderr text with a bracketed marker that is not at the start of the
buffer. -/
def cexStderr : List Char := "warn [ratelimit] retrying".data

/-- C6 counterexample: on a stderr buffer containing the marker
`[ratelimit]` away from position 0, the spec's extraction ("every
substring ... in order of first appearance") yields the token, but the
code's anchored match yields nothing: the claim is false as stated. -/
theorem warning_extraction_cex :
    specExtractAll cexStderr = ["[ratelimit]".data] ∧
    warningsOf cexStderr = [] ∧
    warningsOf cexStderr ≠ specExtractAll cexStderr := by
  decide

/-- Taking as many elements as the takeWhile run recovers the run itself. -/
theorem take_takeWhile_len (p : Char → Bool) (l : List Char) :
    l.take ((l.takeWhile p).length) = l.takeWhile p := by
  induction l with
  | nil => rfl
  | cons a l ih =>
    by_cases h : p a
    · simp [List.takeWhile_cons, h, ih]
    · simp [List.takeWhile_cons, h]

/-- The anchored match produces at most one token. -/
theorem matchHeadToken_length (l : List Char) :
    (matchHeadToken l).length ≤ 1 := by
  cases l with
  | nil => simp [matchHeadToken]
  | cons c rest =>
    simp only [matchHeadToken]
    split
    · simp
    · simp

/-- Any produced token is a prefix of the scanned string and starts with
the opening bracket. -/
theorem matchHeadToken_anchored (l : List Char) (w : List Char)
    (hw : w ∈ matchHeadToken l) :
    l.take w.length = w ∧ w.head? = some '[' := by
  cases l with
  | nil => simp [matchHeadToken] at hw
  | cons c rest =>
    simp only [matchHeadToken] at hw
    split at hw
    · rename_i hcond
      obtain ⟨hc, hbody, hhead⟩ := hcond
      simp only [List.mem_singleton] at hw
      subst hw
      subst hc
      refine ⟨?_, rfl⟩
      have hpre := take_takeWhile_len (fun d => d ≠ ']') rest
      obtain ⟨after, hdrop⟩ : ∃ after,
          rest.drop ((rest.takeWhile (fun d => d ≠ ']')).length) =
            ']' :: after := by
        cases hd : rest.drop ((rest.takeWhile (fun d => d ≠ ']')).length) with
        | nil => rw [hd] at hhead; cases hhead
        | cons x xs =>
          rw [hd] at hhead
          simp only [List.head?_cons, Option.some_inj] at hhead
          exact ⟨xs, by rw [hhead]⟩
      have htake : rest.take ((rest.takeWhile (fun d => d ≠ ']')).length + 1) =
          rest.takeWhile (fun d => d ≠ ']') ++ [']'] := by
        rw [List.take_add, hpre, hdrop]
        rfl
      have hlen : (('[' :: rest.takeWhile (fun d => d ≠ ']')) ++ [']']).length =
          ((rest.takeWhile (fun d => d ≠ ']')).length + 1) + 1 := by
        simp only [List.cons_append, List.length_cons, List.length_append,
          List.length_nil]
      rw [hlen, List.take_succ_cons, htake]
      exact (List.cons_append _ _ _).symm
    · simp at hw

/-- C6 amended: the match against the color-stripped stderr buffer is
anchored at the start of the buffer, so at most one warning token is
extracted, and any extracted token is an initial segment of the stripped
buffer; for the spec's example input the marker sits at the start after
stripping, and the extracted token is exactly the bracketed marker. -/
theorem warning_extraction_amended :
    warningsOf "\x1b[33m[ratelimit]\x1b[0m retrying".data =
      ["[ratelimit]".data] ∧
    ∀ s : List Char, warningsOf s = [] ∨
      ∃ w, warningsOf s = [w] ∧ (stripAnsiL s).take w.length = w := by
  constructor
  · decide
  · intro s
    cases hws : warningsOf s with
    | nil => exact Or.inl rfl
    | cons w tl =>
      have hlen := matchHeadToken_length (stripAnsiL s)
      have hws2 : matchHeadToken (stripAnsiL s) = w :: tl := hws
      rw [hws2] at hlen
      simp only [List.length_cons] at hlen
      have htl : tl = [] := List.length_eq_zero.mp (by omega)
      subst htl
      refine Or.inr ⟨w, rfl, ?_⟩
      exact (matchHeadToken_anchored (stripAnsiL s) w
        (by rw [hws2]; exact List.mem_singleton_self w)).1

/-- C10: for every stderr buffer, the warnings list of the `exec` result
contains at most one token, and any token present is an anchored prefix
of the color-stripped stderr buffer beginning with the opening
bracket — the extraction pattern is anchored to the start of the
accumulated stderr string. -/
theorem warnings_at_most_one_anchored (s : List Char) :
    (warningsOf s).length ≤ 1 ∧
    ∀ w ∈ warningsOf s,
      (stripAnsiL s).take w.length = w ∧ w.head? = some '[' :=
  ⟨matchHeadToken_length _, fun w hw => matchHeadToken_anchored _ w hw⟩

/-- Witness for C10 at a concrete stderr buffer whose stripped text starts
with a marker. -/
theorem warnings_at_most_one_anchored_witness :
    (warningsOf "[a] x".data).length ≤ 1 ∧
    ((stripAnsiL "[a] x".data).take ("[a]".data).length = "[a]".data ∧
      ("[a]".data).head? = some '[') :=
  ⟨(warnings_at_most_one_anchored "[a] x".data).1,
    (warnings_at_most_one_anchored "[a] x".data).2 "[a]".data (by decide)⟩

end RunTests
